import Mathlib

/-!
Verification of the anndata-rs element/cache layer, stacked-collection index
translation, chunked iteration, streamed CSR writes and the dataframe element,
against a shallow embedding of the Rust sources.

Arrays are modelled by their axis-0 decomposition: a value of type `List α` is
the ordered list of axis-0 rows (each row `α` abstracts whatever lives on the
remaining axes).  Fallible Rust paths (`ensure!`, `assert!`, `panic!`,
`.unwrap()`) are modelled with `Except`/`Option`.
-/

namespace AnndataRs

/-! ### In-memory selection primitives

The concrete `ArrayOp::select` implementations and `concat_array_data` live in
`anndata/src/data/array`, outside the sources at hand; they are modelled from
the spec below. -/

/-- Modelled from the spec: in-memory index-list selection along axis 0.
The spec (§4.3) requires that an explicit index list, in arbitrary order and
with duplicates permitted, "produce results in the exact order requested".
`d` is the out-of-bounds default (all uses are in-bounds). -/
def selectIdx {α : Type} (rows : List α) (d : α) (idx : List Nat) : List α :=
  idx.map (fun i => rows.getD i d)

/-- Modelled from the spec: in-memory contiguous slice `[s, e)` along axis 0
(unit step), as performed by a selective read of a row range. -/
def sliceRows {α : Type} (rows : List α) (s e : Nat) : List α :=
  (rows.drop s).take (e - s)

/-- Modelled from the spec: `concat_array_data` — axis-0 concatenation of
array pieces by direct buffer append (§4.4). -/
def concatArrayData {α : Type} (arrays : List (List α)) : List α :=
  arrays.flatten

/-! ### VecVecIndex (src/anndata/src/element/base.rs, lines 901–1012)

`VecVecIndex` is the prefix-sum array built by its `FromIterator<usize>`
instance: `once(0).chain(iter.scan(0, cumsum))`, i.e. `scanl (+) 0`.
`outer_ix` delegates to `slice::binary_search` on this non-decreasing array,
taking `Ok(j) => j` and `Err(j) => j - 1`; on a sorted array this returns the
position of the last entry that is `≤ i` (the binary-search contract permits
any matching position among equal entries; the standard library's search
converges on the last one).  We embed that semantics directly. -/

/-- Rust `impl FromIterator<usize> for VecVecIndex`: the prefix-sum array
`[0, r0, r0+r1, ...]` of the per-source row counts. -/
def vecVecIndexFromCounts (rs : List Nat) : List Nat :=
  List.scanl (· + ·) 0 rs

/-- Rust `VecVecIndex::outer_ix`: index of the last prefix-sum entry `≤ i`
(binary search, `Ok(j) => j`, `Err(j) => j - 1`). -/
def outerIx (ps : List Nat) (i : Nat) : Nat :=
  (ps.takeWhile (fun p => decide (p ≤ i))).length - 1

/-- Rust `VecVecIndex::ix`: `(j, i - self.0[j])` where `j = outer_ix(i)`. -/
def vvIx (ps : List Nat) (i : Nat) : Nat × Nat :=
  (outerIx ps i, i - ps.getD (outerIx ps i) 0)

/-- Rust `VecVecIndex::inv_ix`: `self.0[idx.0] + idx.1`. -/
def vvInvIx (ps : List Nat) (idx : Nat × Nat) : Nat :=
  ps.getD idx.1 0 + idx.2

/-- Rust `VecVecIndex::len`: `*self.0.last().unwrap_or(&0)`. -/
def vvLen (ps : List Nat) : Nat :=
  ps.getLast?.getD 0

/-- Modelled from the spec: `unique_indices_sorted` (from
`data::array::slice`, not among the given sources).  Per §4.4 the indices are
"deduplicated and sorted internally for grouping", and the second output
`mapping` records, for each position of the original input, where to find its
value in the concatenation of per-source results — i.e. the rank of that index
in the sorted deduplicated list.  The length argument is carried to mirror the
Rust signature; the given sources never exercise out-of-range indices. -/
def uniqueIndicesSorted (index : List Nat) (_len : Nat) : List Nat × List Nat :=
  let u := List.insertionSort (· ≤ ·) index.dedup
  (u, index.map (fun i => u.indexOf i))

/-- Rust `VecVecIndex::split_select`, `SelectInfoElem::Index` arm: group the sorted
unique indices by their source (`group_by` over the monotone `outer_ix` key is
rendered as a per-source filter, which agrees with grouping of consecutive
equal keys because the input is sorted), convert each to local coordinates,
and return the reordering `mapping`.  The group map (a `HashMap` in Rust) is
rendered as a function from the source number to its local index list, with a
missing key represented by the empty list. -/
def splitSelectIndex (ps : List Nat) (index : List Nat) :
    (Nat → List Nat) × List Nat :=
  let p := uniqueIndicesSorted index (vvLen ps)
  (fun k => (p.1.filter (fun g => outerIx ps g == k)).map (fun g => g - ps.getD k 0),
   p.2)

/-- Rust `InnerStackedArrayElem::select` in the axis-0 index-list case: split the
selection per source, select locally in each source in source order,
concatenate with `concat_array_data`, then apply `mapping` as one final
re-selection.  Sources are modelled by their logical row lists (each
`InnerArrayElem::select` returns the in-memory selection of the element's
value on every branch, by the spec's selective-read equivalence). -/
def stackedSelectIndex {α : Type} (sources : List (List α)) (d : α)
    (index : List Nat) : List α :=
  let ps := vecVecIndexFromCounts (sources.map List.length)
  let split := splitSelectIndex ps index
  let array := concatArrayData
    ((List.range sources.length).map
      (fun k => selectIdx (sources.getD k []) d (split.1 k)))
  selectIdx array d split.2

/-! ### Chunked iteration (src/anndata/src/element/base.rs, lines 787–846) -/

/-- Rust `ChunkedArrayElem::len` (`ExactSizeIterator`): `div_rem(num_items,
chunk_size)`, plus one when the remainder is non-zero. -/
def chunkedLen (numItems chunkSize : Nat) : Nat :=
  let q := numItems / chunkSize
  let r := numItems % chunkSize
  if r = 0 then q else q + 1

/-- Unfolding of `ChunkedArrayElem::next` from `current_position = pos`:
while `pos < num_items`, yield `(select s![i..j], i, j)` with
`j = min(num_items, i + chunk_size)` and continue from `j`.  The element's
value is `v` and `num_items = v.length` (captured at iterator creation).
`fuel` bounds the recursion; `num_items` steps suffice whenever
`chunk_size ≥ 1` since the position strictly increases. -/
def chunkedRun {α : Type} (v : List α) (chunkSize : Nat) :
    Nat → Nat → List (List α × Nat × Nat)
  | 0, _ => []
  | fuel + 1, pos =>
    if v.length ≤ pos then []
    else
      (sliceRows v pos (min v.length (pos + chunkSize)), pos,
        min v.length (pos + chunkSize)) ::
        chunkedRun v chunkSize fuel (min v.length (pos + chunkSize))

/-- The full sequence of triples yielded by `ChunkedArrayElem` over an element
whose value is `v`. -/
def chunkedList {α : Type} (v : List α) (chunkSize : Nat) :
    List (List α × Nat × Nat) :=
  chunkedRun v chunkSize v.length 0

/-! ### The array element cache cell (src/anndata/src/element/base.rs,
lines 367–503)

`InnerArrayElem` is embedded with its backing container replaced by the
container's logical content (a `V`); each operation additionally reports the
storage operations it performed, so that cache-coherence claims about what is
(not) read from storage are statable.  `read_select` materializing exactly the
selection is the missing backend code; by the spec's selective-read
equivalence its value equals the in-memory selection of the stored value. -/

/-- A storage access performed by an element operation: a full
`DynamicValue::read`, or a selective `read_select`. -/
inductive StorageOp (S : Type) where
  | readFull : StorageOp S
  | readSelect : List S → StorageOp S
deriving DecidableEq, Repr

/-- State of `InnerArrayElem`: declared shape, cache flag, logical content of
the backing container, and the optional materialized value.  (The `dtype`
field and the `D ↔ T` conversions are identities at the level of this model.) -/
structure ArrayElemState (V : Type) where
  shape : List Nat
  cacheEnabled : Bool
  container : V
  element : Option V
deriving DecidableEq, Repr

/-- Rust `InnerArrayElem::data`: return the cached value if present; otherwise read
the container in full and populate the cache iff caching is enabled.  Returns
(result, new state, storage operations performed). -/
def elemData {V S : Type} (e : ArrayElemState V) :
    V × ArrayElemState V × List (StorageOp S) :=
  match e.element with
  | some v => (v, e, [])
  | none =>
    (e.container,
     if e.cacheEnabled then { e with element := some e.container } else e,
     [StorageOp.readFull])

/-- Rust `InnerArrayElem::select`: if every axis of the selection is full, degrade
to `data()`; otherwise slice the cached value in memory if present, else
`read_select` directly against storage.  `isFull` is the per-axis
`SelectInfoElem::is_full` test and `selV` the in-memory `ArrayOp::select` of
the concrete array type (both generic parameters in Rust). -/
def elemSelect {V S : Type} (isFull : S → Bool) (selV : V → List S → V)
    (e : ArrayElemState V) (selection : List S) :
    V × ArrayElemState V × List (StorageOp S) :=
  if selection.all isFull then
    elemData e
  else
    match e.element with
    | some v => (selV v selection, e, [])
    | none => (selV e.container selection, e, [StorageOp.readSelect selection])

/-- Rust `InnerArrayElem::save`: overwrite the container in place, record the new
shape, and replace the cached value only when one was present. -/
def elemSave {V : Type} (shapeV : V → List Nat) (e : ArrayElemState V)
    (data : V) : ArrayElemState V :=
  { e with
    container := data
    shape := shapeV data
    element := if e.element.isSome then some data else e.element }

/-- Rust `InnerArrayElem::disable_cache`: drop any materialized value and clear the
cache flag. -/
def elemDisableCache {V : Type} (e : ArrayElemState V) : ArrayElemState V :=
  { e with element := none, cacheEnabled := false }

/-- Rust `InnerArrayElem::enable_cache`. -/
def elemEnableCache {V : Type} (e : ArrayElemState V) : ArrayElemState V :=
  { e with cacheEnabled := true }

/-! ### The dataframe element (src/anndata/src/element/base.rs, lines 117–216)

A polars `DataFrame` is abstracted to its height and ordered column names; the
row-label `DataFrameIndex` to its list of labels. -/

/-- Abstraction of a polars `DataFrame`: height plus ordered column names. -/
structure DataFrameModel where
  height : Nat
  columns : List String
deriving DecidableEq, Repr

/-- State of `InnerDataFrameElem`: optional cached table, logical content of
the backing container, the ordered deduplicated column-name set, and the
row-label index. -/
structure DataFrameElemState where
  element : Option DataFrameModel
  container : DataFrameModel
  columnNames : List String
  index : List String
deriving DecidableEq, Repr

/-- Rust `InnerDataFrameElem::height`: the length of the row-label index. -/
def dfElemHeight (e : DataFrameElemState) : Nat :=
  e.index.length

/-- Rust `InnerDataFrameElem::new`: `ensure!(df.height() == 0 || index.len() ==
df.height())`, then write the dataframe and index and collect the column
names. -/
def dfElemNew (index : List String) (df : DataFrameModel) :
    Except String DataFrameElemState :=
  if df.height = 0 ∨ index.length = df.height then
    Except.ok
      { element := none
        container := df
        columnNames := df.columns.dedup
        index := index }
  else
    Except.error "cannot create dataframe element as lengths of index and dataframe differ"

/-- Rust `InnerDataFrameElem::save`: `ensure!(num_recs == 0 || self.index.len() ==
num_recs)`, then overwrite the container, rewrite the column-name set, and
replace the cached value only when one was present.  The index is not
touched.  Returns the post-call state of `&mut self` together with the
optional error; the `ensure!` bails before any mutation, so on failure the
state is returned unchanged. -/
def dfElemSave (e : DataFrameElemState) (data : DataFrameModel) :
    DataFrameElemState × Option String :=
  if data.height = 0 ∨ e.index.length = data.height then
    ({ e with
        container := data
        columnNames := data.columns.dedup
        element := if e.element.isSome then some data else e.element },
     none)
  else
    (e, some "cannot update dataframe as lengths differ")

/-! ### Streamed CSR write and row re-reading (src/src/iterator.rs)

A sparse row is a list of `(column, value)` pairs.  The on-disk group holds
three growable arrays `data`, `indices`, `indptr` plus a `shape` attribute;
the i32/i64 down-cast of `indices`/`indptr` is a storage-size choice the spec
declares semantically neutral, so offsets are modelled as `Nat`. -/

/-- The container produced by `CsrIterator::write`. -/
structure CsrContainer (α : Type) where
  data : List α
  indices : List Nat
  indptr : List Nat
  shape : Nat × Nat
deriving DecidableEq, Repr

/-- Rust `CsrIterator::write`: stream the rows, extending `data` with the values in
row order, `indices` with the column indices, and accumulating `indptr` as the
running non-zero count (`scan` from 0); finally record `shape =
[indptr.len() - 1, num_cols]`.  The 10000-row chunking only batches the
extends and does not affect the final arrays. -/
def csrIteratorWrite {α : Type} (rows : List (List (Nat × α))) (numCols : Nat) :
    CsrContainer α :=
  { data := (rows.map (fun r => r.map Prod.snd)).flatten
    indices := (rows.map (fun r => r.map Prod.fst)).flatten
    indptr := List.scanl (· + ·) 0 (rows.map List.length)
    shape := ((List.scanl (· + ·) 0 (rows.map List.length)).length - 1, numCols) }

/-- Rust `CsrRowIterator::next`, `Disk` branch, for row `row`: read
`indices[indptr[row] .. indptr[row+1]]` and `data[...]` and zip them into
`(column, value)` pairs. -/
def csrRowRead {α : Type} (c : CsrContainer α) (row : Nat) : List (Nat × α) :=
  let i := c.indptr.getD row 0
  let j := c.indptr.getD (row + 1) 0
  (sliceRows c.indices i j).zip (sliceRows c.data i j)

/-! ### CSR concatenation (src/anndata-rs/src/data.rs, lines 230–304)

A `nalgebra_sparse::CsrMatrix` is modelled by its column count and its rows as
`(column, value)` pair lists; `nrows` and the three CSR arrays are derived. -/

/-- Abstraction of `nalgebra_sparse::CsrMatrix`. -/
structure CsrMatrix (α : Type) where
  ncols : Nat
  rows : List (List (Nat × α))
deriving DecidableEq, Repr

def CsrMatrix.nrows {α : Type} (m : CsrMatrix α) : Nat :=
  m.rows.length

/-- The `values` array of a CSR matrix (row-major). -/
def CsrMatrix.values {α : Type} (m : CsrMatrix α) : List α :=
  (m.rows.map (fun r => r.map Prod.snd)).flatten

/-- The `col_indices` array of a CSR matrix (row-major). -/
def CsrMatrix.colIndices {α : Type} (m : CsrMatrix α) : List Nat :=
  (m.rows.map (fun r => r.map Prod.fst)).flatten

/-- The `row_offsets` array of a CSR matrix: each entry is the cumulative
non-zero count before that row. -/
def CsrMatrix.rowOffsets {α : Type} (m : CsrMatrix α) : List Nat :=
  List.scanl (· + ·) 0 (m.rows.map List.length)

/-- Column indices of one sparse row are strictly increasing. -/
def colsStrictIncr {α : Type} : List (Nat × α) → Bool
  | [] => true
  | [_] => true
  | p :: q :: r => decide (p.1 < q.1) && colsStrictIncr (q :: r)

/-- Modelled from nalgebra: the validity check of
`CsrMatrix::try_from_csr_data` — every column index in bounds and the column
indices of each row strictly increasing.  (The offset-array checks hold by
construction in this model.) -/
def csrValid {α : Type} (m : CsrMatrix α) : Bool :=
  m.rows.all fun r =>
    r.all (fun p => decide (p.1 < m.ncols)) && colsStrictIncr r

/-- Rust `itertools::all_equal` on a list of numbers. -/
def allEqual (l : List Nat) : Bool :=
  l.all (fun x => x == l.headD x)

/-- Rust `rstack_csr`: fold over the pieces, taking `num_cols` from each piece in
turn (so the *last* piece's column count wins), appending every row, and
re-basing the row offsets to the cumulative non-zero count; finally
`try_from_csr_data(..).unwrap()` (the `.unwrap()` panic on invalid data is
`none`).  Note: no column-count check is performed. -/
def rstackCsr {α : Type} (mats : List (CsrMatrix α)) : Option (CsrMatrix α) :=
  let numCols := mats.foldl (fun _ m => m.ncols) 0
  let merged : CsrMatrix α := { ncols := numCols, rows := (mats.map CsrMatrix.rows).flatten }
  if csrValid merged then some merged else none

/-- Rust `rstack_csr_with_index`: `panic!("num cols mismatch")` unless all column
counts agree; otherwise take `num_cols` from the *first* piece, stably sort
the concatenated rows by the `index` key (`itertools::sorted_by_key`,
rendered with the stable `insertionSort`), and rebuild
(`try_from_csr_data(..).unwrap()` modelled as before). -/
def rstackCsrWithIndex {α : Type} (index : List Nat) (mats : List (CsrMatrix α)) :
    Except String (CsrMatrix α) :=
  if allEqual (mats.map CsrMatrix.ncols) = false then
    Except.error "num cols mismatch"
  else
    let numCols := (mats.headD { ncols := 0, rows := [] }).ncols
    let tagged := ((mats.map CsrMatrix.rows).flatten).zip index
    let m : CsrMatrix α :=
      { ncols := numCols
        rows := (List.insertionSort (fun a b => a.2 ≤ b.2) tagged).map Prod.fst }
    if csrValid m then Except.ok m else Except.error "invalid csr data"

/-! ### The anndata object of src/src/iterator.rs (C8)

Only the fields these entry points touch are modelled; matrix payloads are
abstracted to their shapes. -/

/-- The `AnnData` fields read or written by the row-iterator entry points. -/
structure AnnDataState where
  nObs : Nat
  nVars : Nat
  x : Option (Nat × Nat)
  obsm : List (String × (Nat × Nat))
deriving DecidableEq, Repr

/-- Rust `AnnData::set_x_from_row_iter` for a row iterator producing `nrows` rows
with declared column count `ncols`: adopt `ncols` when `n_vars == 0` and
`assert!` equality; write; adopt `nrows` when `n_obs == 0` and `assert!`
equality (an `assert!` panic is modelled as an error). -/
def setXFromRowIter (st : AnnDataState) (ncols nrows : Nat) :
    Except String AnnDataState :=
  let nVars := if st.nVars = 0 then ncols else st.nVars
  if nVars ≠ ncols then Except.error "Number of variables mismatched"
  else
    let nObs := if st.nObs = 0 then nrows else st.nObs
    if nObs ≠ nrows then Except.error "Number of observations mismatched"
    else Except.ok { st with nVars := nVars, nObs := nObs, x := some (nrows, ncols) }

/-- Rust `AnnData::add_obsm_from_row_iter`: write the entry, adopt `nrows` when
`n_obs == 0`, `assert!` equality, and insert the element under `key`. -/
def addObsmFromRowIter (st : AnnDataState) (key : String) (ncols nrows : Nat) :
    Except String AnnDataState :=
  let nObs := if st.nObs = 0 then nrows else st.nObs
  if nObs ≠ nrows then Except.error "Number of observations mismatched"
  else
    Except.ok
      { st with
        nObs := nObs
        obsm := (st.obsm.filter (fun p => p.1 ≠ key)) ++ [(key, (nrows, ncols))] }

/-! ## Shared lemmas about prefix sums, `takeWhile` and flattening -/

theorem getD_map_of_lt {α β : Type} (f : α → β) (l : List α) (n : Nat) (d : β) (d' : α)
    (h : n < l.length) : (l.map f).getD n d = f (l.getD n d') := by
  rw [List.getD_eq_getElem (l.map f) d (by simpa using h), List.getElem_map,
    List.getD_eq_getElem l d' h]

theorem scanl_add_getD_gen (xs : List Nat) : ∀ (c k : Nat), k ≤ xs.length →
    (List.scanl (· + ·) c xs).getD k 0 = c + (xs.take k).sum := by
  induction xs with
  | nil =>
    intro c k hk
    have : k = 0 := by simpa using hk
    simp [this, List.scanl]
  | cons x xs ih =>
    intro c k hk
    rw [List.scanl_cons, List.singleton_append]
    cases k with
    | zero => simp
    | succ k =>
      rw [List.getD_cons_succ, ih (c + x) k (by simpa using hk), List.take_succ_cons,
        List.sum_cons]
      omega

theorem scanl_add_getD (xs : List Nat) (k : Nat) (hk : k ≤ xs.length) :
    (List.scanl (· + ·) 0 xs).getD k 0 = (xs.take k).sum := by
  simpa using scanl_add_getD_gen xs 0 k hk

theorem scanl_add_le_of_mem : ∀ (xs : List Nat) (c y : Nat),
    y ∈ List.scanl (· + ·) c xs → c ≤ y := by
  intro xs
  induction xs with
  | nil =>
    intro c y hy
    simp [List.scanl] at hy
    omega
  | cons x xs ih =>
    intro c y hy
    rw [List.scanl_cons, List.singleton_append] at hy
    rcases List.mem_cons.mp hy with h | h
    · omega
    · have := ih (c + x) y h
      omega

theorem scanl_add_pairwise : ∀ (xs : List Nat) (c : Nat),
    List.Pairwise (· ≤ ·) (List.scanl (· + ·) c xs) := by
  intro xs
  induction xs with
  | nil => intro c; simp [List.scanl]
  | cons x xs ih =>
    intro c
    rw [List.scanl_cons, List.singleton_append]
    refine List.pairwise_cons.mpr ⟨?_, ih (c + x)⟩
    intro y hy
    have := scanl_add_le_of_mem xs (c + x) y hy
    omega

theorem takeWhile_length_mono {α : Type} {p q : α → Bool} (h : ∀ x, p x = true → q x = true) :
    ∀ (l : List α), (l.takeWhile p).length ≤ (l.takeWhile q).length := by
  intro l
  induction l with
  | nil => simp
  | cons a t ih =>
    by_cases hp : p a
    · rw [List.takeWhile_cons_of_pos hp, List.takeWhile_cons_of_pos (h a hp)]
      simpa using ih
    · rw [List.takeWhile_cons_of_neg hp]
      simp

theorem takeWhile_le_spec (i : Nat) : ∀ (ps : List Nat), List.Pairwise (· ≤ ·) ps →
    ∀ k, k < ps.length →
    ((ps.getD k 0 ≤ i) ↔ k < (ps.takeWhile (fun p => decide (p ≤ i))).length) := by
  intro ps
  induction ps with
  | nil =>
    intro _ k hk
    simp at hk
  | cons a t ih =>
    intro hp k hk
    by_cases ha : a ≤ i
    · rw [List.takeWhile_cons_of_pos (by simpa using ha)]
      cases k with
      | zero => simpa using ha
      | succ k =>
        rw [List.getD_cons_succ, List.length_cons]
        rw [ih hp.of_cons k (by simpa using hk)]
        omega
    · rw [List.takeWhile_cons_of_neg (by simpa using ha)]
      cases k with
      | zero => simpa using ha
      | succ k =>
        rw [List.getD_cons_succ]
        simp only [List.length_nil]
        constructor
        · intro hle
          exfalso
          have hk' : k < t.length := by simpa using hk
          have hmem : t.getD k 0 ∈ t := by
            rw [List.getD_eq_getElem t 0 hk']
            exact List.getElem_mem hk'
          have := List.rel_of_pairwise_cons hp hmem
          omega
        · intro h
          omega

theorem take_succ_sum (rs : List Nat) (k : Nat) (hk : k < rs.length) :
    (rs.take (k + 1)).sum = (rs.take k).sum + rs.getD k 0 := by
  rw [List.take_succ, List.sum_append, List.getElem?_eq_getElem hk,
    List.getD_eq_getElem rs 0 hk]
  simp

/-! ### Facts about VecVecIndex -/

theorem vv_getD (rs : List Nat) (k : Nat) (hk : k ≤ rs.length) :
    (vecVecIndexFromCounts rs).getD k 0 = (rs.take k).sum :=
  scanl_add_getD rs k hk

theorem vv_length (rs : List Nat) : (vecVecIndexFromCounts rs).length = rs.length + 1 :=
  List.length_scanl 0 rs

theorem vv_pairwise (rs : List Nat) : List.Pairwise (· ≤ ·) (vecVecIndexFromCounts rs) :=
  scanl_add_pairwise rs 0

theorem takeWhile_length_le {α : Type} (p : α → Bool) : ∀ (l : List α),
    (l.takeWhile p).length ≤ l.length := by
  intro l
  induction l with
  | nil => simp
  | cons a t ih =>
    by_cases hp : p a
    · rw [List.takeWhile_cons_of_pos hp]
      simpa using ih
    · rw [List.takeWhile_cons_of_neg hp]
      simp

theorem outerIx_le_length (rs : List Nat) (i : Nat) :
    outerIx (vecVecIndexFromCounts rs) i ≤ rs.length := by
  unfold outerIx
  have h1 := takeWhile_length_le (fun p => decide (p ≤ i)) (vecVecIndexFromCounts rs)
  rw [vv_length] at h1
  omega

/-- The characterizing property of `outer_ix` over a prefix-sum index:
the row-count prefix `k` starts at or before flat position `i` exactly when
`outer_ix` lands at source `k` or later. -/
theorem outerIx_iff (rs : List Nat) (i : Nat) : ∀ k, k ≤ rs.length →
    ((rs.take k).sum ≤ i ↔ k ≤ outerIx (vecVecIndexFromCounts rs) i) := by
  have hspec := takeWhile_le_spec i (vecVecIndexFromCounts rs) (vv_pairwise rs)
  have h0 : 0 < (List.takeWhile (fun p => decide (p ≤ i)) (vecVecIndexFromCounts rs)).length := by
    have h := (hspec 0 (by rw [vv_length]; omega)).mp
    rw [vv_getD rs 0 (by omega)] at h
    exact h (by simp)
  intro k hk
  rw [← vv_getD rs k hk, hspec k (by rw [vv_length]; omega)]
  unfold outerIx
  omega

theorem outerIx_lt_length (rs : List Nat) (i : Nat) (hi : i < rs.sum) :
    outerIx (vecVecIndexFromCounts rs) i < rs.length := by
  by_contra h
  push_neg at h
  have h2 := (outerIx_iff rs i rs.length (le_refl _)).mpr h
  rw [List.take_length] at h2
  omega

theorem outerIx_take_sum_le (rs : List Nat) (i : Nat) :
    (rs.take (outerIx (vecVecIndexFromCounts rs) i)).sum ≤ i :=
  (outerIx_iff rs i _ (outerIx_le_length rs i)).mpr (le_refl _)

theorem lt_outerIx_succ_take_sum (rs : List Nat) (i : Nat)
    (h : outerIx (vecVecIndexFromCounts rs) i < rs.length) :
    i < (rs.take (outerIx (vecVecIndexFromCounts rs) i + 1)).sum := by
  by_contra h2
  push_neg at h2
  have h3 := (outerIx_iff rs i (outerIx (vecVecIndexFromCounts rs) i + 1) (by omega)).mp h2
  omega

theorem vvLen_eq_sum (rs : List Nat) : vvLen (vecVecIndexFromCounts rs) = rs.sum := by
  unfold vvLen
  rw [List.getLast?_eq_getElem?, ← List.getD_eq_getElem?_getD, vv_length,
    Nat.add_sub_cancel, vv_getD rs rs.length (le_refl _), List.take_length]

/-! ### Slicing a flattened list at its prefix-sum boundaries -/

theorem sliceRows_flatten {β : Type} : ∀ (L : List (List β)) (i : Nat), i < L.length →
    sliceRows L.flatten (((L.map List.length).take i).sum)
      (((L.map List.length).take (i + 1)).sum) = L.getD i [] := by
  intro L
  induction L with
  | nil =>
    intro i hi
    simp at hi
  | cons x L ih =>
    intro i hi
    cases i with
    | zero =>
      simp [sliceRows, List.take_left]
    | succ i =>
      have hi' : i < L.length := by simpa using hi
      simp only [List.map_cons, List.take_succ_cons, List.sum_cons, List.flatten_cons,
        List.getD_cons_succ, sliceRows]
      rw [List.drop_append]
      have harith : x.length + ((L.map List.length).take (i + 1)).sum -
          (x.length + ((L.map List.length).take i).sum) =
          ((L.map List.length).take (i + 1)).sum - ((L.map List.length).take i).sum := by
        omega
      rw [harith]
      exact ih i hi'

/-! ## Theorems for the claims -/

/-- C4: for every array element and per-axis selection, `select` degrades to
`data()` when the selection is full on every axis (`data()` reading from the
cache when present, otherwise reading storage in full and populating the
cache iff caching is enabled); for a non-full selection it slices the cached
value in memory when one is present (no storage access), and otherwise
performs exactly one `read_select` against storage and no full read. -/
theorem c4_select_branches {V S : Type} (isFull : S → Bool)
    (selV : V → List S → V) (e : ArrayElemState V) (sel : List S) :
    (sel.all isFull = true → elemSelect isFull selV e sel = elemData e) ∧
    (∀ v, e.element = some v → elemData (S := S) e = (v, e, [])) ∧
    (e.element = none →
      elemData (S := S) e =
        (e.container,
         (if e.cacheEnabled then { e with element := some e.container } else e),
         [StorageOp.readFull])) ∧
    (sel.all isFull = false → ∀ v, e.element = some v →
      elemSelect isFull selV e sel = (selV v sel, e, [])) ∧
    (sel.all isFull = false → e.element = none →
      elemSelect isFull selV e sel =
        (selV e.container sel, e, [StorageOp.readSelect sel])) := by
  refine ⟨?_, ?_, ?_, ?_, ?_⟩
  · intro h; simp [elemSelect, h]
  · intro v hv; simp [elemData, hv]
  · intro hn; simp [elemData, hn]
  · intro h v hv; simp [elemSelect, h, hv]
  · intro h hn; simp [elemSelect, h, hn]

theorem c4_select_branches_witness :
    elemSelect (V := List Nat) (S := Bool) (fun b => b) (fun v _ => v)
      ⟨[2], false, [7, 8], some [5, 6]⟩ [false]
    = ([5, 6], ⟨[2], false, [7, 8], some [5, 6]⟩, []) :=
  (c4_select_branches (V := List Nat) (S := Bool) (fun b => b) (fun v _ => v)
      ⟨[2], false, [7, 8], some [5, 6]⟩ [false]).2.2.2.1 (by decide) [5, 6] rfl

/-- C5: after `save(v2)` the container holds `v2` and the recorded shape is
`v2`'s shape; a previously populated cache is replaced by `v2` while a cold
cache stays empty; a subsequent `data()` returns `v2` in either case; and
after `disable_cache()` the materialized value is dropped immediately and
every subsequent `data()` reads from storage (the post-`data()` state equals
the state before it, so the cache never re-populates). -/
theorem c5_save_disable_cache {V : Type} (S : Type) (shapeV : V → List Nat)
    (e : ArrayElemState V) (v2 : V) :
    (elemSave shapeV e v2).container = v2 ∧
    (elemSave shapeV e v2).shape = shapeV v2 ∧
    (e.element.isSome = true → (elemSave shapeV e v2).element = some v2) ∧
    (e.element = none → (elemSave shapeV e v2).element = none) ∧
    (elemData (S := S) (elemSave shapeV e v2)).1 = v2 ∧
    (elemDisableCache e).element = none ∧
    elemData (S := S) (elemDisableCache e) =
      (e.container, elemDisableCache e, [StorageOp.readFull]) := by
  refine ⟨rfl, rfl, ?_, ?_, ?_, rfl, ?_⟩
  · intro h; simp [elemSave, h]
  · intro h; simp [elemSave, h]
  · cases h : e.element <;> simp [elemSave, elemData, h]
  · simp [elemData, elemDisableCache]

theorem c5_save_disable_cache_witness :
    (elemSave (V := Nat) (fun n => [n]) ⟨[3], true, 7, some 1⟩ 9).element = some 9 ∧
    (elemData (S := Unit) (elemSave (V := Nat) (fun n => [n]) ⟨[3], true, 7, some 1⟩ 9)).1 = 9 ∧
    elemData (S := Unit) (elemDisableCache (V := Nat) ⟨[3], true, 7, some 1⟩) =
      (7, elemDisableCache (V := Nat) ⟨[3], true, 7, some 1⟩, [StorageOp.readFull]) :=
  ⟨((c5_save_disable_cache (V := Nat) Unit (fun n => [n]) ⟨[3], true, 7, some 1⟩ 9).2.2.1 rfl),
   (c5_save_disable_cache (V := Nat) Unit (fun n => [n]) ⟨[3], true, 7, some 1⟩ 9).2.2.2.2.1,
   (c5_save_disable_cache (V := Nat) Unit (fun n => [n]) ⟨[3], true, 7, some 1⟩ 9).2.2.2.2.2.2⟩

/-- C9: saving a dataframe whose non-zero height differs from the (non-zero)
length of the element's row-label index fails with the dimension-mismatch
error, and the element's state — container, column names, index and cached
value — is returned unchanged. -/
theorem c9_dataframe_save_mismatch (e : DataFrameElemState) (df : DataFrameModel)
    (_hL : dfElemHeight e ≠ 0) (hh : df.height ≠ 0) (hne : df.height ≠ dfElemHeight e) :
    dfElemSave e df = (e, some "cannot update dataframe as lengths differ") := by
  unfold dfElemSave
  rw [if_neg]
  rintro (h | h)
  · exact hh h
  · exact hne (h.symm)

theorem c9_dataframe_save_mismatch_witness :
    dfElemSave ⟨none, ⟨5, []⟩, [], ["a", "b", "c", "d", "e"]⟩ ⟨3, ["x"]⟩
    = (⟨none, ⟨5, []⟩, [], ["a", "b", "c", "d", "e"]⟩,
       some "cannot update dataframe as lengths differ") :=
  c9_dataframe_save_mismatch ⟨none, ⟨5, []⟩, [], ["a", "b", "c", "d", "e"]⟩ ⟨3, ["x"]⟩
    (by decide) (by decide) (by decide)

/-- C10: the height check of the dataframe element is waived for empty
tables: saving a height-0 dataframe always succeeds, overwriting the
container while leaving the index — hence `height()` — at its previous
length, and `new` accepts a height-0 dataframe paired with an index of any
length. -/
theorem c10_dataframe_empty_save (e : DataFrameElemState) (df : DataFrameModel)
    (idx : List String) (h : df.height = 0) :
    (dfElemSave e df).2 = none ∧
    (dfElemSave e df).1.container = df ∧
    (dfElemSave e df).1.index = e.index ∧
    dfElemHeight (dfElemSave e df).1 = dfElemHeight e ∧
    dfElemNew idx df = Except.ok ⟨none, df, df.columns.dedup, idx⟩ := by
  refine ⟨?_, ?_, ?_, ?_, ?_⟩ <;> simp [dfElemSave, dfElemNew, dfElemHeight, h]

theorem c10_dataframe_empty_save_witness :
    (dfElemSave ⟨none, ⟨5, []⟩, [], ["a", "b", "c", "d", "e"]⟩ ⟨0, ["x"]⟩).2 = none ∧
    dfElemHeight (dfElemSave ⟨none, ⟨5, []⟩, [], ["a", "b", "c", "d", "e"]⟩ ⟨0, ["x"]⟩).1 = 5 ∧
    dfElemNew ["p", "q", "r"] ⟨0, ["x"]⟩ = Except.ok ⟨none, ⟨0, ["x"]⟩, ["x"], ["p", "q", "r"]⟩ := by
  have h := c10_dataframe_empty_save ⟨none, ⟨5, []⟩, [], ["a", "b", "c", "d", "e"]⟩ ⟨0, ["x"]⟩
    ["p", "q", "r"] rfl
  exact ⟨h.1, h.2.2.2.1, by simpa using h.2.2.2.2⟩

/-! ### Chunked-iteration lemmas -/

theorem chunkedLen_zero (c : Nat) : chunkedLen 0 c = 0 := by
  simp [chunkedLen]

theorem chunkedLen_of_le (n c : Nat) (h1 : 0 < n) (h2 : n ≤ c) : chunkedLen n c = 1 := by
  unfold chunkedLen
  rcases Nat.lt_or_ge n c with h | h
  · rw [Nat.div_eq_of_lt h, Nat.mod_eq_of_lt h, if_neg (by omega)]
  · have hnc : n = c := by omega
    subst hnc
    rw [Nat.div_self h1, Nat.mod_self, if_pos rfl]

theorem chunkedLen_add (s c : Nat) (hc : 1 ≤ c) : chunkedLen (c + s) c = 1 + chunkedLen s c := by
  unfold chunkedLen
  have hdiv : (c + s) / c = s / c + 1 := by
    rw [Nat.add_comm c s]
    exact Nat.add_div_right s hc
  have hmod : (c + s) % c = s % c := Nat.add_mod_left c s
  rw [hdiv, hmod]
  by_cases h : s % c = 0 <;> simp [h] <;> omega

theorem chunkedLen_eq_ceil (n c : Nat) (hc : 1 ≤ c) : chunkedLen n c = (n + c - 1) / c := by
  unfold chunkedLen
  have hdm := Nat.div_add_mod n c
  by_cases h : n % c = 0
  · rw [if_pos h]
    have e1 : n + c - 1 = c - 1 + c * (n / c) := by omega
    rw [e1, Nat.mul_comm c (n / c), Nat.add_mul_div_right _ _ hc,
      Nat.div_eq_of_lt (by omega : c - 1 < c)]
    omega
  · rw [if_neg h]
    have hr1 : n % c < c := Nat.mod_lt n (by omega)
    have hqc : (n / c + 1) * c = c * (n / c) + c := by ring
    have e1 : n + c - 1 = (n % c - 1) + (n / c + 1) * c := by omega
    rw [e1, Nat.add_mul_div_right _ _ hc,
      Nat.div_eq_of_lt (by omega : n % c - 1 < c)]
    omega

theorem chunkedRun_bounds {α : Type} (v : List α) (c : Nat) (hc : 1 ≤ c) :
    ∀ fuel pos, v.length - pos ≤ fuel →
    (chunkedRun v c fuel pos).map (fun t => (t.2.1, t.2.2)) =
      (List.range (chunkedLen (v.length - pos) c)).map
        (fun k => (pos + k * c, min v.length (pos + k * c + c))) := by
  intro fuel
  induction fuel with
  | zero =>
    intro pos h
    have h0 : v.length - pos = 0 := by omega
    rw [h0, chunkedLen_zero]
    simp [chunkedRun]
  | succ fuel ih =>
    intro pos h
    by_cases hpos : v.length ≤ pos
    · have h0 : v.length - pos = 0 := by omega
      rw [h0, chunkedLen_zero]
      simp [chunkedRun, hpos]
    · push_neg at hpos
      unfold chunkedRun
      rw [if_neg (by omega)]
      simp only [List.map_cons]
      rcases Nat.lt_or_ge (pos + c) v.length with hcase | hcase
      · have hj : min v.length (pos + c) = pos + c := by omega
        rw [hj, ih (pos + c) (by omega)]
        have hsplit : v.length - pos = c + (v.length - (pos + c)) := by omega
        rw [hsplit, chunkedLen_add _ c hc, Nat.add_comm 1 _, List.range_succ_eq_map,
          List.map_cons, List.map_map]
        congr 1
        · simp only [Nat.zero_mul, Nat.add_zero]
          rw [hj]
        · apply List.map_congr_left
          intro k _
          simp only [Function.comp_apply, Nat.succ_eq_add_one, Nat.succ_mul, Prod.mk.injEq]
          constructor <;> omega
      · have hj : min v.length (pos + c) = v.length := by omega
        rw [hj]
        have htail : chunkedRun v c fuel v.length = [] := by
          cases fuel <;> simp [chunkedRun]
        rw [htail]
        have hlen1 : chunkedLen (v.length - pos) c = 1 :=
          chunkedLen_of_le _ c (by omega) (by omega)
        rw [hlen1]
        have hr1 : List.range 1 = [0] := rfl
        rw [hr1]
        simp only [List.map_cons, List.map_nil, Nat.zero_mul, Nat.add_zero]
        rw [hj]

theorem chunkedRun_flatten {α : Type} (v : List α) (c : Nat) (hc : 1 ≤ c) :
    ∀ fuel pos, v.length - pos ≤ fuel →
    ((chunkedRun v c fuel pos).map (fun t => t.1)).flatten = v.drop pos := by
  intro fuel
  induction fuel with
  | zero =>
    intro pos h
    have h0 : v.length ≤ pos := by omega
    simp [chunkedRun, List.drop_eq_nil_iff, h0]
  | succ fuel ih =>
    intro pos h
    by_cases hpos : v.length ≤ pos
    · simp [chunkedRun, hpos, List.drop_eq_nil_iff]
    · push_neg at hpos
      unfold chunkedRun
      rw [if_neg (by omega)]
      simp only [List.map_cons, List.flatten_cons]
      rw [ih (min v.length (pos + c)) (by omega)]
      unfold sliceRows
      have hdrop : v.drop (min v.length (pos + c)) =
          (v.drop pos).drop (min v.length (pos + c) - pos) := by
        rw [List.drop_drop]
        congr 1
        omega
      rw [hdrop, List.take_append_drop]

theorem chunkedRun_data {α : Type} (v : List α) (c : Nat) :
    ∀ fuel pos, ∀ t ∈ chunkedRun v c fuel pos, t.1 = sliceRows v t.2.1 t.2.2 := by
  intro fuel
  induction fuel with
  | zero =>
    intro pos t ht
    simp [chunkedRun] at ht
  | succ fuel ih =>
    intro pos t ht
    unfold chunkedRun at ht
    by_cases hpos : v.length ≤ pos
    · rw [if_pos hpos] at ht
      simp at ht
    · rw [if_neg hpos] at ht
      rcases List.mem_cons.mp ht with h | h
      · rw [h]
      · exact ih _ t h

/-! ### Partition of a key-sorted list into key buckets -/

theorem filter_key_split {α : Type} (key : α → Nat) :
    ∀ (u : List α) (c : Nat), List.Pairwise (fun a b => key a ≤ key b) u →
    (∀ x ∈ u, c ≤ key x) →
    u = u.filter (fun x => key x == c) ++ u.filter (fun x => !(key x == c)) := by
  intro u
  induction u with
  | nil =>
    intro c _ _
    simp
  | cons a u ih =>
    intro c hs hb
    by_cases ha : key a = c
    · rw [List.filter_cons_of_pos (by simp [ha]), List.filter_cons_of_neg (by simp [ha]),
        List.cons_append]
      exact congrArg (a :: ·) (ih c hs.of_cons (fun x hx => hb x (List.mem_cons_of_mem _ hx)))
    · have hgt : c < key a := by
        have := hb a (List.mem_cons_self a u)
        omega
      rw [List.filter_cons_of_neg (by simp [ha]), List.filter_cons_of_pos (by simp [ha])]
      have h1 : u.filter (fun x => key x == c) = [] := by
        rw [List.filter_eq_nil_iff]
        intro x hx
        have := List.rel_of_pairwise_cons hs hx
        simp only [beq_iff_eq]
        omega
      rw [h1, List.nil_append]
      have h2 : u.filter (fun x => !(key x == c)) = u := by
        rw [List.filter_eq_self]
        intro x hx
        have := List.rel_of_pairwise_cons hs hx
        simp only [Bool.not_eq_true', beq_eq_false_iff_ne, ne_eq]
        omega
      rw [h2]

theorem buckets_range' {α : Type} (key : α → Nat) :
    ∀ (m : Nat) (u : List α) (c : Nat), List.Pairwise (fun a b => key a ≤ key b) u →
    (∀ x ∈ u, c ≤ key x ∧ key x < c + m) →
    ((List.range' c m).map (fun k => u.filter (fun g => key g == k))).flatten = u := by
  intro m
  induction m with
  | zero =>
    intro u c _ hb
    cases u with
    | nil => simp
    | cons a u =>
      have := hb a (List.mem_cons_self a u)
      omega
  | succ m ih =>
    intro u c hs hb
    rw [List.range'_succ]
    simp only [List.map_cons, List.flatten_cons]
    have hbuck : ∀ k ∈ List.range' (c + 1) m,
        u.filter (fun g => key g == k) =
        (u.filter (fun x => !(key x == c))).filter (fun g => key g == k) := by
      intro k hk
      have hk1 : c + 1 ≤ k := (List.mem_range'_1.mp hk).1
      rw [List.filter_filter]
      apply List.filter_congr
      intro x _
      by_cases hxk : key x = k
      · have hkc : ¬ (k = c) := by omega
        simp [hxk, hkc]
      · simp [hxk]
    rw [List.map_congr_left hbuck,
      ih (u.filter (fun x => !(key x == c))) (c + 1) (hs.sublist (List.filter_sublist u)) ?_]
    · exact (filter_key_split key u c hs (fun x hx => (hb x hx).1)).symm
    · intro x hx
      obtain ⟨hxu, hxc⟩ := List.mem_filter.mp hx
      have h1 := hb x hxu
      have h2 : key x ≠ c := by simpa using hxc
      omega

theorem getD_map_indexOf {α : Type} (u : List Nat) (f : Nat → α) (d : α) (i : Nat)
    (hi : i ∈ u) :
    (u.map f).getD (u.indexOf i) d = f i := by
  have hlt : u.indexOf i < u.length := List.indexOf_lt_length.mpr hi
  rw [getD_map_of_lt f u (u.indexOf i) d 0 hlt]
  congr 1
  rw [List.getD_eq_getElem u 0 hlt]
  exact List.getElem_indexOf hlt

/-- Index translation is correct: the row at flat position `g` of the
concatenation is the row of source `outer_ix g` at the local position
`g` minus that source's starting offset. -/
theorem concat_getD_eq {α : Type} (sources : List (List α)) (d : α) (g : Nat)
    (hg : g < (sources.map List.length).sum) :
    (concatArrayData sources).getD g d =
      (sources.getD (outerIx (vecVecIndexFromCounts (sources.map List.length)) g) []).getD
        (g - ((sources.map List.length).take
          (outerIx (vecVecIndexFromCounts (sources.map List.length)) g)).sum) d := by
  set rs := sources.map List.length with hrs
  set k := outerIx (vecVecIndexFromCounts rs) g with hk
  have hkl : k < rs.length := outerIx_lt_length rs g hg
  have hks : (rs.take k).sum ≤ g := outerIx_take_sum_le rs g
  have hks2 : g < (rs.take (k + 1)).sum := lt_outerIx_succ_take_sum rs g hkl
  have hkl' : k < sources.length := by
    rw [hrs, List.length_map] at hkl
    exact hkl
  have hfl : concatArrayData sources = (sources.take k).flatten ++ (sources.drop k).flatten := by
    unfold concatArrayData
    rw [← List.flatten_append, List.take_append_drop]
  have hlen : ((sources.take k).flatten).length = (rs.take k).sum := by
    rw [List.length_flatten, hrs, List.map_take]
  rw [hfl, List.getD_append_right _ _ _ _ (by omega), hlen]
  have hdropk : sources.drop k = sources.getD k [] :: sources.drop (k + 1) := by
    rw [List.drop_eq_getElem_cons hkl']
    congr 1
    rw [List.getD_eq_getElem sources [] hkl']
  rw [hdropk, List.flatten_cons]
  have hlenk : (sources.getD k []).length = rs.getD k 0 := by
    rw [hrs, (getD_map_of_lt List.length sources k 0 [] hkl').symm]
  have hsum1 : (rs.take (k + 1)).sum = (rs.take k).sum + rs.getD k 0 :=
    take_succ_sum rs k hkl
  rw [List.getD_append _ _ _ _ (by omega)]

theorem outerIx_mono (ps : List Nat) {i j : Nat} (h : i ≤ j) :
    outerIx ps i ≤ outerIx ps j := by
  unfold outerIx
  have hmono := takeWhile_length_mono
    (p := fun p => decide (p ≤ i)) (q := fun p => decide (p ≤ j))
    (fun x hx => by
      simp only [decide_eq_true_eq] at hx ⊢
      omega) ps
  omega

/-- C1: for every stacked array element and every axis-0 index-list selection
— unsorted order and duplicated indices included — splitting the indices per
source with `split_select`, selecting locally in each source, concatenating
the per-source partial results in source order, and applying the returned
`mapping` as one final re-selection yields exactly the rows of the
concatenated stack at the requested global indices, in the requested order,
with a duplicated global index yielding the same row multiple times. -/
theorem c1_stacked_index_select {α : Type} (sources : List (List α)) (d : α)
    (l : List Nat) (hl : ∀ i ∈ l, i < (sources.map List.length).sum) :
    stackedSelectIndex sources d l =
      l.map (fun i => (concatArrayData sources).getD i d) := by
  unfold stackedSelectIndex splitSelectIndex uniqueIndicesSorted
  simp only
  set rs := sources.map List.length with hrs
  set ps := vecVecIndexFromCounts rs with hps
  set u := List.insertionSort (· ≤ ·) l.dedup with hu
  have humem : ∀ x : Nat, x ∈ u ↔ x ∈ l := fun x =>
    ((List.perm_insertionSort _ _).mem_iff).trans List.mem_dedup
  have husort : List.Pairwise (· ≤ ·) u := List.sorted_insertionSort _ _
  have hub : ∀ g ∈ u, g < rs.sum := fun g hg => hl g ((humem g).mp hg)
  have hkey : ∀ g ∈ u, outerIx ps g < sources.length := by
    intro g hg
    have h := outerIx_lt_length rs g (hub g hg)
    rwa [hrs, List.length_map] at h
  have hkeysorted : List.Pairwise (fun a b => outerIx ps a ≤ outerIx ps b) u :=
    husort.imp (fun hab => outerIx_mono ps hab)
  have hbucket : ∀ k ∈ List.range sources.length,
      selectIdx (sources.getD k []) d
        (List.map (fun g => g - ps.getD k 0) (List.filter (fun g => outerIx ps g == k) u)) =
      List.map (fun g => (concatArrayData sources).getD g d)
        (List.filter (fun g => outerIx ps g == k) u) := by
    intro k hkr
    have hk : k < sources.length := List.mem_range.mp hkr
    unfold selectIdx
    rw [List.map_map]
    apply List.map_congr_left
    intro g hg
    obtain ⟨hgu, hgk⟩ := List.mem_filter.mp hg
    have hgk' : outerIx ps g = k := by simpa using hgk
    have hfetch := concat_getD_eq sources d g (hub g hgu)
    rw [← hrs, ← hps, hgk'] at hfetch
    simp only [Function.comp_apply]
    rw [hps, vv_getD rs k (by rw [hrs, List.length_map]; omega)]
    exact hfetch.symm
  rw [List.map_congr_left hbucket]
  have hflat : concatArrayData
      (List.map (fun k => List.map (fun g => (concatArrayData sources).getD g d)
        (List.filter (fun g => outerIx ps g == k) u)) (List.range sources.length)) =
      List.map (fun g => (concatArrayData sources).getD g d) u := by
    unfold concatArrayData
    rw [show (List.map (fun k => List.map (fun g => sources.flatten.getD g d)
        (List.filter (fun g => outerIx ps g == k) u)) (List.range sources.length)) =
        List.map (List.map (fun g => sources.flatten.getD g d))
          (List.map (fun k => List.filter (fun g => outerIx ps g == k) u)
            (List.range sources.length)) from by rw [List.map_map]; rfl]
    rw [← List.map_flatten]
    congr 1
    rw [List.range_eq_range']
    exact buckets_range' (fun g => outerIx ps g) sources.length u 0 hkeysorted
      (fun x hx => ⟨Nat.zero_le _, by simpa using hkey x hx⟩)
  rw [hflat]
  unfold selectIdx
  rw [List.map_map]
  apply List.map_congr_left
  intro i hi
  simp only [Function.comp_apply]
  exact getD_map_indexOf u (fun g => (concatArrayData sources).getD g d) d i ((humem i).mpr hi)

theorem c1_stacked_index_select_witness :
    stackedSelectIndex [[10, 11, 12], [20, 21], [30, 31]] 0 [6, 0, 4, 0] = [31, 10, 21, 10] := by
  have h := c1_stacked_index_select [[10, 11, 12], [20, 21], [30, 31]] 0 [6, 0, 4, 0] (by decide)
  rw [h]
  decide

/-- C2: for the `VecVecIndex` built from row counts `[r0, ..., rk]`, `ix` and
`inv_ix` are mutual inverses — `inv_ix (ix i) = i` for every flat index
`i < sum r`, and `ix (inv_ix (o, j)) = (o, j)` for every valid pair with
`j < r_o` — and `outer_ix` is monotone non-decreasing in the flat index. -/
theorem c2_vecvec_index_laws (rs : List Nat) :
    (∀ i, i < rs.sum →
      vvInvIx (vecVecIndexFromCounts rs) (vvIx (vecVecIndexFromCounts rs) i) = i) ∧
    (∀ o j, o < rs.length → j < rs.getD o 0 →
      vvIx (vecVecIndexFromCounts rs) (vvInvIx (vecVecIndexFromCounts rs) (o, j)) = (o, j)) ∧
    (∀ i i', i ≤ i' →
      outerIx (vecVecIndexFromCounts rs) i ≤ outerIx (vecVecIndexFromCounts rs) i') := by
  refine ⟨?_, ?_, fun i i' h => outerIx_mono _ h⟩
  · intro i _hi
    unfold vvIx vvInvIx
    simp only
    have hk := outerIx_le_length rs i
    rw [vv_getD rs _ hk]
    have hle := outerIx_take_sum_le rs i
    omega
  · intro o j ho hj
    unfold vvIx vvInvIx
    simp only
    have hov : (vecVecIndexFromCounts rs).getD o 0 = (rs.take o).sum := vv_getD rs o (by omega)
    rw [hov]
    have h1 : o ≤ outerIx (vecVecIndexFromCounts rs) ((rs.take o).sum + j) :=
      (outerIx_iff rs ((rs.take o).sum + j) o (by omega)).mp (by omega)
    have h2 : ¬ (o + 1 ≤ outerIx (vecVecIndexFromCounts rs) ((rs.take o).sum + j)) := by
      intro hcon
      have h3 := (outerIx_iff rs ((rs.take o).sum + j) (o + 1) (by omega)).mpr hcon
      rw [take_succ_sum rs o ho] at h3
      omega
    have heq : outerIx (vecVecIndexFromCounts rs) ((rs.take o).sum + j) = o := by omega
    rw [heq, hov]
    simp only [Prod.mk.injEq]
    exact ⟨trivial, by omega⟩

theorem c2_vecvec_index_laws_witness :
    vvInvIx (vecVecIndexFromCounts [3, 2, 2]) (vvIx (vecVecIndexFromCounts [3, 2, 2]) 6) = 6 ∧
    vvIx (vecVecIndexFromCounts [3, 2, 2])
      (vvInvIx (vecVecIndexFromCounts [3, 2, 2]) (1, 1)) = (1, 1) ∧
    outerIx (vecVecIndexFromCounts [3, 2, 2]) 2 ≤ outerIx (vecVecIndexFromCounts [3, 2, 2]) 5 := by
  have h := c2_vecvec_index_laws [3, 2, 2]
  exact ⟨h.1 6 (by decide), h.2.1 1 1 (by decide) (by decide), h.2.2 2 5 (by decide)⟩

/-- C3: for every element value and every chunk size `c ≥ 1`, the chunked
iterator yields `(subset, start, end)` triples whose boundaries are exactly
the ascending non-overlapping blocks `[k·c, min(n, k·c + c))` for
`k < len()` (so the final block may be shorter), each subset is the
materialized slice of its block, concatenating all subsets in order
reproduces the full data, and `len()` equals `ceil(n / c)`. -/
theorem c3_chunked_iteration {α : Type} (v : List α) (c : Nat) (hc : 1 ≤ c) :
    (chunkedList v c).map (fun t => (t.2.1, t.2.2)) =
      (List.range (chunkedLen v.length c)).map
        (fun k => (k * c, min v.length (k * c + c))) ∧
    ((chunkedList v c).map (fun t => t.1)).flatten = v ∧
    (∀ t ∈ chunkedList v c, t.1 = sliceRows v t.2.1 t.2.2) ∧
    chunkedLen v.length c = (v.length + c - 1) / c := by
  refine ⟨?_, ?_, ?_, chunkedLen_eq_ceil _ c hc⟩
  · have h := chunkedRun_bounds v c hc v.length 0 (by omega)
    simpa using h
  · have h := chunkedRun_flatten v c hc v.length 0 (by omega)
    simpa using h
  · exact chunkedRun_data v c v.length 0

theorem c3_chunked_iteration_witness :
    (chunkedList [1, 2, 3, 4, 5] 2).map (fun t => (t.2.1, t.2.2)) = [(0, 2), (2, 4), (4, 5)] ∧
    ((chunkedList [1, 2, 3, 4, 5] 2).map (fun t => t.1)).flatten = [1, 2, 3, 4, 5] ∧
    chunkedLen 5 2 = 3 := by
  have h := c3_chunked_iteration [1, 2, 3, 4, 5] 2 (by decide)
  refine ⟨?_, h.2.1, ?_⟩
  · rw [h.1]
    decide
  · have h4 := h.2.2.2
    simp at h4
    exact h4

/-- C6: the streamed CSR write of any finite row sequence with declared
column count `m` records shape `(number_of_rows, m)`, and re-reading row `i`
through the CSR row iterator returns exactly the `(column, value)` pairs
supplied for row `i`, in their original order. -/
theorem c6_csr_stream_roundtrip {α : Type} (rows : List (List (Nat × α))) (m : Nat) :
    (csrIteratorWrite rows m).shape = (rows.length, m) ∧
    ∀ i, i < rows.length → csrRowRead (csrIteratorWrite rows m) i = rows.getD i [] := by
  constructor
  · unfold csrIteratorWrite
    simp [List.length_scanl]
  · intro i hi
    unfold csrRowRead csrIteratorWrite
    simp only
    have hfst : (rows.map fun r => r.map Prod.fst).map List.length = rows.map List.length := by
      rw [List.map_map]
      exact List.map_congr_left (fun r _ => by simp)
    have hsnd : (rows.map fun r => r.map Prod.snd).map List.length = rows.map List.length := by
      rw [List.map_map]
      exact List.map_congr_left (fun r _ => by simp)
    have hilen : i ≤ (rows.map List.length).length := by
      rw [List.length_map]; omega
    have hilen1 : i + 1 ≤ (rows.map List.length).length := by
      rw [List.length_map]; omega
    rw [scanl_add_getD _ i hilen, scanl_add_getD _ (i + 1) hilen1]
    have hslice1 := sliceRows_flatten (rows.map fun r => r.map Prod.fst) i
      (by rw [List.length_map]; exact hi)
    have hslice2 := sliceRows_flatten (rows.map fun r => r.map Prod.snd) i
      (by rw [List.length_map]; exact hi)
    rw [hfst] at hslice1
    rw [hsnd] at hslice2
    rw [hslice1, hslice2]
    rw [getD_map_of_lt (fun r => r.map Prod.fst) rows i [] [] hi,
      getD_map_of_lt (fun r => r.map Prod.snd) rows i [] [] hi]
    rw [List.zip_map']
    simp

theorem c6_csr_stream_roundtrip_witness :
    (csrIteratorWrite [[(0, 5), (2, 7)], [], [(1, 9)]] 3).shape = (3, 3) ∧
    csrRowRead (csrIteratorWrite [[(0, 5), (2, 7)], [], [(1, 9)]] 3) 0 = [(0, 5), (2, 7)] ∧
    csrRowRead (csrIteratorWrite [[(0, 5), (2, 7)], [], [(1, 9)]] 3) 1 = [] ∧
    csrRowRead (csrIteratorWrite [[(0, 5), (2, 7)], [], [(1, 9)]] 3) 2 = [(1, 9)] := by
  have h := c6_csr_stream_roundtrip [[(0, 5), (2, 7)], [], [(1, 9)]] 3
  exact ⟨h.1, h.2 0 (by decide), h.2 1 (by decide), h.2 2 (by decide)⟩

/-! ### CSR concatenation lemmas -/

theorem foldl_ncols_const {α : Type} (c : Nat) :
    ∀ (mats : List (CsrMatrix α)) (a : Nat), mats ≠ [] → (∀ m ∈ mats, m.ncols = c) →
    mats.foldl (fun _ m => m.ncols) a = c := by
  intro mats
  induction mats with
  | nil =>
    intro a h _
    exact absurd rfl h
  | cons m rest ih =>
    intro a _ hall
    simp only [List.foldl_cons]
    cases hr : rest with
    | nil =>
      simpa using hall m (List.mem_cons_self m rest)
    | cons r rs =>
      rw [← hr]
      refine ih m.ncols (by rw [hr]; simp) ?_
      intro x hx
      exact hall x (List.mem_cons_of_mem _ hx)

theorem csrValid_flatten {α : Type} (mats : List (CsrMatrix α)) (c : Nat)
    (hcols : ∀ m ∈ mats, m.ncols = c)
    (hv : ∀ m ∈ mats, csrValid m = true) :
    csrValid ({ ncols := c, rows := (mats.map CsrMatrix.rows).flatten } : CsrMatrix α) = true := by
  unfold csrValid
  rw [List.all_eq_true]
  intro r hr
  simp only at hr
  obtain ⟨rows0, hrows0, hrmem⟩ := List.mem_flatten.mp hr
  obtain ⟨m, hm, hmr⟩ := List.mem_map.mp hrows0
  have hvm := hv m hm
  unfold csrValid at hvm
  rw [List.all_eq_true] at hvm
  have hvr := hvm r (by rw [hmr]; exact hrmem)
  rw [Bool.and_eq_true] at hvr ⊢
  refine ⟨?_, hvr.2⟩
  rw [List.all_eq_true] at hvr ⊢
  intro p hp
  have := hvr.1 p hp
  simp only [decide_eq_true_eq] at this ⊢
  rw [← hcols m hm]
  exact this

theorem csr_values_flatten {α : Type} (mats : List (CsrMatrix α)) (c : Nat) :
    ({ ncols := c, rows := (mats.map CsrMatrix.rows).flatten } : CsrMatrix α).values
      = (mats.map CsrMatrix.values).flatten := by
  unfold CsrMatrix.values
  simp only
  rw [List.map_flatten, List.flatten_flatten, List.map_map, List.map_map]
  rfl

theorem csr_colIndices_flatten {α : Type} (mats : List (CsrMatrix α)) (c : Nat) :
    ({ ncols := c, rows := (mats.map CsrMatrix.rows).flatten } : CsrMatrix α).colIndices
      = (mats.map CsrMatrix.colIndices).flatten := by
  unfold CsrMatrix.colIndices
  simp only
  rw [List.map_flatten, List.flatten_flatten, List.map_map, List.map_map]
  rfl

/-- C7 counterexample: `rstack_csr` performs no column-count check — stacking
a 1×3 piece over a 1×5 piece raises no error at all; it silently returns a
merge whose column count is the last piece's. -/
theorem c7_counterexample :
    CsrMatrix.ncols (⟨3, [[(0, 5)]]⟩ : CsrMatrix Nat) ≠
      CsrMatrix.ncols (⟨5, [[(4, 6)]]⟩ : CsrMatrix Nat) ∧
    rstackCsr [(⟨3, [[(0, 5)]]⟩ : CsrMatrix Nat), ⟨5, [[(4, 6)]]⟩] =
      some ⟨5, [[(0, 5)], [(4, 6)]]⟩ := by
  exact ⟨by decide, rfl⟩

/-- C7 amended: only `rstack_csr_with_index` raises the `num cols mismatch`
error when the pieces' column counts differ; `rstack_csr` itself performs no
column-count check (failing only through the CSR validity check, with the
last piece's column count).  When the column counts all agree and every piece
is a valid CSR matrix, `rstack_csr` succeeds with the structural merge: the
rows of all pieces appended in order, the `values` and `col_indices` arrays
appended in order, and every row-pointer entry re-based to the cumulative
non-zero count of the rows before it. -/
theorem c7_amended_csr_concat {α : Type} (mats : List (CsrMatrix α)) (c : Nat)
    (hne : mats ≠ []) (hcols : ∀ m ∈ mats, m.ncols = c)
    (hval : ∀ m ∈ mats, csrValid m = true) :
    rstackCsr mats = some { ncols := c, rows := (mats.map CsrMatrix.rows).flatten } ∧
    ({ ncols := c, rows := (mats.map CsrMatrix.rows).flatten } : CsrMatrix α).values
      = (mats.map CsrMatrix.values).flatten ∧
    ({ ncols := c, rows := (mats.map CsrMatrix.rows).flatten } : CsrMatrix α).colIndices
      = (mats.map CsrMatrix.colIndices).flatten ∧
    (∀ k, k ≤ ((mats.map CsrMatrix.rows).flatten).length →
      ({ ncols := c, rows := (mats.map CsrMatrix.rows).flatten } : CsrMatrix α).rowOffsets.getD k 0
        = ((((mats.map CsrMatrix.rows).flatten).map List.length).take k).sum) ∧
    (∀ (index : List Nat) (mats2 : List (CsrMatrix α)),
      allEqual (mats2.map CsrMatrix.ncols) = false →
      rstackCsrWithIndex index mats2 = Except.error "num cols mismatch") := by
  refine ⟨?_, csr_values_flatten mats c, csr_colIndices_flatten mats c, ?_, ?_⟩
  · unfold rstackCsr
    rw [foldl_ncols_const c mats 0 hne hcols,
      if_pos (csrValid_flatten mats c hcols hval)]
  · intro k hk
    unfold CsrMatrix.rowOffsets
    simp only
    exact scanl_add_getD _ k (by rw [List.length_map]; exact hk)
  · intro index mats2 h
    unfold rstackCsrWithIndex
    rw [if_pos h]

theorem c7_amended_csr_concat_witness :
    rstackCsr [(⟨3, [[(0, 2)]]⟩ : CsrMatrix Nat), ⟨3, [[(1, 4)], [(0, 1), (2, 2)]]⟩] =
      some ⟨3, [[(0, 2)], [(1, 4)], [(0, 1), (2, 2)]]⟩ ∧
    rstackCsrWithIndex [0, 1] [(⟨3, [[(0, 5)]]⟩ : CsrMatrix Nat), ⟨5, [[(4, 6)]]⟩] =
      Except.error "num cols mismatch" := by
  have h := c7_amended_csr_concat
    [(⟨3, [[(0, 2)]]⟩ : CsrMatrix Nat), ⟨3, [[(1, 4)], [(0, 1), (2, 2)]]⟩] 3
    (by decide) (by decide) (by decide)
  exact ⟨h.1, h.2.2.2.2 [0, 1] [⟨3, [[(0, 5)]]⟩, ⟨5, [[(4, 6)]]⟩] (by decide)⟩

/-- C8 counterexample: writing a 0×0 matrix as `X` records `n_obs = 0`, but
the subsequent `add_obsm_from_row_iter` of a 10×20 entry does NOT fail: since
`n_obs == 0` it silently adopts the new row count, succeeding with
`n_obs = 10` — contradicting the claim that it must fail. -/
theorem c8_counterexample :
    setXFromRowIter ⟨0, 0, none, []⟩ 0 0 = Except.ok ⟨0, 0, some (0, 0), []⟩ ∧
    addObsmFromRowIter ⟨0, 0, some (0, 0), []⟩ "test" 20 10 =
      Except.ok ⟨10, 0, some (0, 0), [("test", (10, 20))]⟩ := by
  exact ⟨rfl, rfl⟩

/-- C8 amended: `add_obsm_from_row_iter` rejects a row-count mismatch only
when the dataset's `n_obs` is already non-zero; when `n_obs = 0` it adopts
the new entry's row count (silently resizing the dataset) and succeeds. -/
theorem c8_amended_add_obsm (st : AnnDataState) (key : String) (ncols nrows : Nat) :
    (st.nObs = 0 → addObsmFromRowIter st key ncols nrows =
      Except.ok
        { st with
          nObs := nrows
          obsm := (st.obsm.filter (fun p => p.1 ≠ key)) ++ [(key, (nrows, ncols))] }) ∧
    (st.nObs ≠ 0 → st.nObs ≠ nrows →
      addObsmFromRowIter st key ncols nrows =
        Except.error "Number of observations mismatched") := by
  constructor
  · intro h; simp [addObsmFromRowIter, h]
  · intro h h2; simp [addObsmFromRowIter, if_neg h, h2]

theorem c8_amended_add_obsm_witness :
    addObsmFromRowIter ⟨0, 0, some (0, 0), []⟩ "test" 20 10 =
      Except.ok ⟨10, 0, some (0, 0), [("test", (10, 20))]⟩ ∧
    addObsmFromRowIter ⟨5, 0, some (5, 0), []⟩ "test" 20 10 =
      Except.error "Number of observations mismatched" := by
  refine ⟨?_, ?_⟩
  · have h := (c8_amended_add_obsm ⟨0, 0, some (0, 0), []⟩ "test" 20 10).1 rfl
    simpa using h
  · exact (c8_amended_add_obsm ⟨5, 0, some (5, 0), []⟩ "test" 20 10).2 (by decide) (by decide)

end AnndataRs
